import Mathlib

/-!
Verification of the table-of-contents plugin
(`zim/plugins/tableofcontents.py`).

The development shallowly embeds the plugin's core logic:

* the text buffer is a list of lines, each carrying its text and a flag
  telling whether the line is tagged as a heading;
* `find_heading` embeds the search loop of the source function of the same
  name (the buffer's finder, `zim.gui.pageview.TextFinder`, is not part of
  the sources; it is modelled from the specification: `find` returns the
  first whole-line match scanning from the start of the document,
  `find_next` the next occurrence, wrapping around at the end);
* the `Gtk.TreeStore` filled by `ToCTreeModel.populate` is embedded as the
  list of its rows in insertion order, a row being the pair of the node's
  tree path (list of child indices) and its text; `populate` is the
  stack-based nesting pass of the source;
* `can_promote`, `can_demote`, `on_promote`, `on_demote` embed the
  restructuring operations; `on_promote`/`on_demote` return the list of
  `_format(path, newlevel)` requests they issue, in order;
* `select_section` embeds the span computation of `ToCWidget.select_section`.
-/

namespace ToC

/-- A line of the text buffer: its text and whether it carries a heading
tag (`_is_heading` in the source). -/
structure Line where
  text : String
  isHeading : Bool
deriving DecidableEq, Repr

/-- A text buffer is a list of lines. -/
abbrev Buffer := List Line

/-- Text of line `i` (out-of-range lines read as empty non-heading lines). -/
def lineText (buf : Buffer) (i : Nat) : String :=
  (buf.getD i ⟨"", false⟩).text

/-- Whether line `i` is tagged as a heading (`_is_heading` on the iter at
line `i`). -/
def isHeadingAt (buf : Buffer) (i : Nat) : Bool :=
  (buf.getD i ⟨"", false⟩).isHeading

/-- Indices of the lines whose whole text equals `heading`, in document
order.  The source searches for the regex `^re.escape(heading)$`, i.e. a
whole-line exact match with every character taken literally. -/
def matchIdxs (buf : Buffer) (heading : String) : List Nat :=
  (List.range buf.length).filter (fun i => decide (lineText buf i = heading))

/-- Modelled from the spec: `buffer.finder.find(regex, FIND_REGEX)` of
`zim.gui.pageview.TextFinder` is not under the sources; per the
specification it searches forward from the start of the document and
returns the first whole-line match, or not-found. -/
def findFirst (buf : Buffer) (heading : String) : Option Nat :=
  (matchIdxs buf heading).head?

/-- Modelled from the spec: `buffer.finder.find_next()` returns the next
occurrence of the current pattern after position `i`, wrapping around to
the first occurrence when no later one exists (the source guards against
exactly this wrap-around by comparing offsets). -/
def findNext (buf : Buffer) (heading : String) (i : Nat) : Option Nat :=
  match ((matchIdxs buf heading).filter (fun j => decide (i < j))).head? with
  | some j => some j
  | none => (matchIdxs buf heading).head?

/-- The `while not _is_heading(iter)` retry loop of `find_heading`:
`start` is the offset of the first match, `i` the current position; the
loop is written with explicit fuel (the source's termination relies on the
wrap-around guard `iter.get_offset() == start`). -/
def findHeadingLoop (buf : Buffer) (heading : String) (start : Nat) :
    Nat → Nat → Option Nat
  | _, 0 => none
  | i, fuel + 1 =>
    if isHeadingAt buf i then some i
    else
      match findNext buf heading i with
      | some j => if j = start then none else findHeadingLoop buf heading start j fuel
      | none => none

/-- `find_heading(buffer, heading)`: find the first whole-line match from
the start of the document, then retry `find_next` until the match is
tagged as a heading, returning not-found when the search wraps back to
the first match or runs out of matches. -/
def find_heading (buf : Buffer) (heading : String) : Option Nat :=
  match findFirst buf heading with
  | some start => findHeadingLoop buf heading start start (buf.length + 1)
  | none => none

/-- A row of the embedded `Gtk.TreeStore`: the node's tree path and its
text column. -/
abbrev Row := List Nat × String

/-- The embedded `Gtk.TreeStore`: its rows in insertion order.  For stores
built by `populate` the insertion order is exactly the pre-order of the
tree (children are appended under a parent only while the parent is on the
stack, i.e. before any node outside its subtree). -/
abbrev Store := List Row

/-- Number of children the node at path `parent` currently has (rows whose
path extends `parent` by exactly one index).  `Gtk.TreeStore.append` hands
the new child the next free index, which is this count. -/
def childCount (store : Store) (parent : List Nat) : Nat :=
  (store.filter (fun r =>
    decide (r.1.length = parent.length + 1) && parent.isPrefixOf r.1)).length

/-- `Gtk.TreeStore.append(parent, (text,))`: append a new childless node
under `parent` (`none` is the virtual root) and return the new store
together with the new node's path. -/
def appendRow (store : Store) (parent : Option (List Nat)) (text : String) :
    Store × List Nat :=
  let pp := parent.getD []
  let path := pp ++ [childCount store pp]
  (store ++ [(path, text)], path)

/-- The stack pass of `ToCTreeModel.populate`: the stack holds
`(level, node)` pairs, topmost first, with the sentinel `(-1, virtual root)`
at the bottom; for each record pop while the top's level is `≥` the
record's level, append the record under the new top, push it. -/
def populateAux : List (Int × String) → List (Int × Option (List Nat)) →
    Store → Store
  | [], _, store => store
  | (level, text) :: rest, stack, store =>
    let stack1 := stack.dropWhile (fun e => decide (level ≤ e.1))
    let parent := (stack1.headD ((-1 : Int), none)).2
    let r := appendRow store parent text
    populateAux rest ((level, some r.2) :: stack1) r.1

/-- `ToCTreeModel.populate(parsetree, show_h1)` on the extracted list of
`(level, text)` heading records: drop the first record when `show_h1` is
false, the first record has level 1 and every other record has level `> 1`;
then run the stack pass. -/
def populate (headings : List (Int × String)) (show_h1 : Bool) : Store :=
  let headings1 :=
    if !show_h1 && !headings.isEmpty
        && decide ((headings.headD ((0 : Int), "")).1 = 1)
        && headings.tail.all (fun h => decide (1 < h.1)) then
      headings.tail
    else headings
  populateAux headings1 [((-1 : Int), none)] []

/-- `ToCWidget.can_promote(paths)`: truthy iff `paths` is non-empty and
every selected path has depth `> 1`. -/
def can_promote (paths : List (List Nat)) : Bool :=
  !paths.isEmpty && paths.all (fun p => decide (1 < p.length))

/-- `ToCWidget.can_demote(paths)`: false when `paths` is empty or some
selected path has depth `≥ 6`; otherwise true iff every selected path
whose last index is 0 has its parent path also among the selected paths. -/
def can_demote (paths : List (List Nat)) : Bool :=
  if paths.isEmpty || paths.any (fun p => decide (6 ≤ p.length)) then
    false
  else
    paths.all (fun p =>
      !(decide (p.getLastD 0 = 0)) || decide (p.dropLast ∈ paths))

/-- `ToCWidget._walk(model, iter)`: the node at `p` together with all its
(grand)children.  In the row embedding these are exactly the rows whose
path extends `p`, and the stores built by `populate` list them in
pre-order. -/
def walk (store : Store) (p : List Nat) : List (List Nat) :=
  (store.filter (fun r => p.isPrefixOf r.1)).map Prod.fst

/-- The inner loop shared by `on_promote` and `on_demote`: visit the walked
nodes in order, emit a `_format` request with level `f p` for each node not
yet in `seen`, and add every visited node to `seen` (the source executes
`seen.add(key)` whether or not the node was skipped). -/
def formatWalk (f : List Nat → Int) :
    List (List Nat) → List (List Nat) → List (List Nat × Int) × List (List Nat)
  | [], seen => ([], seen)
  | p :: ps, seen =>
    if p ∈ seen then formatWalk f ps (p :: seen)
    else
      let r := formatWalk f ps (p :: seen)
      ((p, f p) :: r.1, r.2)

/-- The outer loop shared by `on_promote` and `on_demote`: walk each
selected path in turn, threading the `seen` set through. -/
def batchCalls (f : List Nat → Int) (store : Store) :
    List (List Nat) → List (List Nat) → List (List Nat × Int)
  | [], _ => []
  | path :: rest, seen =>
    let w := formatWalk f (walk store path) seen
    w.1 ++ batchCalls f store rest w.2

/-- The new level `on_promote` computes for a walked node at path `p`:
`len(p) - 1` when `show_h1` else `len(p)`. -/
def promoteLevel (show_h1 : Bool) (p : List Nat) : Int :=
  if show_h1 then (p.length : Int) - 1 else (p.length : Int)

/-- The new level `on_demote` computes for a walked node at path `p`:
`len(p) + 1` when `show_h1` else `len(p) + 2`. -/
def demoteLevel (show_h1 : Bool) (p : List Nat) : Int :=
  if show_h1 then (p.length : Int) + 1 else (p.length : Int) + 2

/-- `ToCWidget.on_promote`: when the selection passes `can_promote`, the
list of `_format(path, newlevel)` requests issued, in order; otherwise no
requests (the handler returns `False`). -/
def on_promote (store : Store) (show_h1 : Bool) (paths : List (List Nat)) :
    List (List Nat × Int) :=
  if can_promote paths then batchCalls (promoteLevel show_h1) store paths []
  else []

/-- `ToCWidget.on_demote`: when the selection passes `can_demote`, the list
of `_format(path, newlevel)` requests issued, in order; otherwise no
requests. -/
def on_demote (store : Store) (show_h1 : Bool) (paths : List (List Nat)) :
    List (List Nat × Int) :=
  if can_demote paths then batchCalls (demoteLevel show_h1) store paths []
  else []

/-- The assertion guarding `ToCWidget._format`: `assert level > 0 and
level < 7`. -/
def formatLevelOk (level : Int) : Bool :=
  decide (0 < level) && decide (level < 7)

/-- `model[path][TEXT_COL]`: the text of the row at `path`, or `none` when
no such row exists (where the source's `model.get_iter` raises
`ValueError`). -/
def textAt (store : Store) (p : List Nat) : Option String :=
  (store.find? (fun r => decide (r.1 = p))).map Prod.snd

/-- The path `path[:-1] + [path[-1] + 1]` that `select_section` probes for
the end heading: the next sibling of `path`. -/
def nextSibling (path : List Nat) : List Nat :=
  path.dropLast ++ [path.getLastD 0 + 1]

/-- `ToCWidget.select_section(buffer, path)`: locate the heading at `path`
and the heading at its next-sibling path (when that row exists and its
text is truthy); select from the start heading to the end heading, or to
the end of the buffer when there is no end text.  Returns the selected
span `(start, stop)` (`stop = buf.length` standing for `get_end_iter`), or
`none` when no selection is made. -/
def select_section (store : Store) (buf : Buffer) (path : List Nat) :
    Option (Nat × Nat) :=
  match textAt store path with
  | none => none
  | some starttext =>
    let endtext := textAt store (nextSibling path)
    let startIdx := find_heading buf starttext
    let stopIdx : Option Nat :=
      match endtext with
      | some t => if t = "" then some buf.length else find_heading buf t
      | none => some buf.length
    match startIdx, stopIdx with
    | some s, some e => some (s, e)
    | _, _ => none

/-- Greatest `j < bound` whose level `L.getD j 0` is strictly below
`target` (helper for the specification of the stack pass). -/
def lastSmallerAux (L : List Int) (target : Int) : Nat → Option Nat
  | 0 => none
  | j + 1 =>
    if L.getD j 0 < target then some j else lastSmallerAux L target j

/-- The most recent record before `n` with level strictly smaller than
record `n`'s level, as an index, or `none` when every earlier record has
level `≥` record `n`'s. -/
def lastSmaller (L : List Int) (n : Nat) : Option Nat :=
  lastSmallerAux L (L.getD n 0) n

/-- The parent path the specification predicts for record `i`: the path of
the most recent earlier record with strictly smaller level, or the virtual
root (`[]`) when there is none. -/
def parentSpec (L : List Int) (store : Store) (i : Nat) : List Nat :=
  match lastSmaller L i with
  | some j => (store.getD j ([], "")).1
  | none => []

/-- Invariant of the stack pass after `n` records have been processed:
the stack consists of the rows at an index list `js` (most recent first)
above the sentinel, `js` is strictly decreasing, its members are exactly
the indices `j < n` such that every later processed record has a strictly
larger level (the ancestor chain of the last inserted node). -/
def StackInv (L : List Int) (n : Nat) (store : Store)
    (stack : List (Int × Option (List Nat))) : Prop :=
  ∃ js : List Nat,
    stack = js.map (fun j => (L.getD j 0, some (store.getD j ([], "")).1))
        ++ [((-1 : Int), (none : Option (List Nat)))]
    ∧ js.Pairwise (· > ·)
    ∧ (∀ j ∈ js, j < n)
    ∧ (∀ j, j < n →
        ((∀ k, j < k → k < n → L.getD j 0 < L.getD k 0) ↔ j ∈ js))

/-- `self.pageview.toggle_format('h' + str(level))` after
`select_heading` located the heading by its text: set the level of the
first heading whose text matches (the embedded document consists of the
heading records only, so the first heading-tagged matching line is the
first record with that text). -/
def setHeadingLevel (doc : List (Int × String)) (text : String) (level : Int) :
    List (Int × String) :=
  match doc.findIdx? (fun h => decide (h.2 = text)) with
  | some i => doc.set i (level, text)
  | none => doc

/-- One `_format(p, level)` request applied to the document: read the text
at `p` from the (stale) tree model and restyle the first heading with that
text; a path with no row locates nothing and is skipped. -/
def applyCall (store : Store) (doc : List (Int × String))
    (call : List Nat × Int) : List (Int × String) :=
  match textAt store call.1 with
  | some text => setHeadingLevel doc text call.2
  | none => doc

/-- Apply a whole batch of `_format` requests in order. -/
def applyBatch (store : Store) (doc : List (Int × String))
    (calls : List (List Nat × Int)) : List (Int × String) :=
  calls.foldl (applyCall store) doc

/-- The promote-then-demote round trip of the specification: build the
tree, run `on_promote` on the selection, rebuild the tree from the mutated
document, run `on_demote` on the same selection. -/
def promoteThenDemote (doc : List (Int × String)) (show_h1 : Bool)
    (paths : List (List Nat)) : List (Int × String) :=
  let store := populate doc show_h1
  let doc1 := applyBatch store doc (on_promote store show_h1 paths)
  let store1 := populate doc1 show_h1
  applyBatch store1 doc1 (on_demote store1 show_h1 paths)

/-- Document with duplicate line text where only the second occurrence is
tagged as a heading (test document of the specification). -/
def bufNotes : Buffer := [⟨"Notes", false⟩, ⟨"body", false⟩, ⟨"Notes", true⟩]

/-- A one-line document with zero heading-tagged matches for its text. -/
def plainBuf : Buffer := [⟨"Notes", false⟩]

/-- Heading records of the demote failing input: two top-level headings,
the second followed by a strictly descending chain down to level 5. -/
def demoHeadings : List (Int × String) :=
  [(1, "a"), (1, "b"), (2, "c"), (3, "d"), (4, "e"), (5, "f")]

/-- The tree `populate` builds from `demoHeadings` with `show_h1 = false`
(the first heading is not dropped because the second also has level 1). -/
def demoStore : Store := populate demoHeadings false

/-- Heading records for the `select_section` counterexample: a level-2
heading that has no next sibling but is not the last heading. -/
def abcHeadings : List (Int × String) := [(1, "A"), (2, "B"), (1, "C")]

/-- Tree for the `select_section` counterexample. -/
def abcStore : Store := populate abcHeadings true

/-- Buffer for the `select_section` counterexample: one line per heading,
all tagged. -/
def abcBuffer : Buffer := [⟨"A", true⟩, ⟨"B", true⟩, ⟨"C", true⟩]

/-- Document of the promote/demote round-trip counterexample. -/
def rtDoc : List (Int × String) := [(1, "a"), (2, "b"), (2, "c")]

/-- A buffer together with its cursor (insert mark) position, for the
frame conditions of `find_heading`. -/
structure BufState where
  lines : Buffer
  cursor : Nat
deriving DecidableEq, Repr

/-- Modelled from the spec: the stateful `finder.find` of
`zim.gui.pageview.TextFinder` places the cursor on the first whole-line
match from the start of the document and reports success. -/
def finderFindSt (st : BufState) (heading : String) : Bool × BufState :=
  match findFirst st.lines heading with
  | some i => (true, ⟨st.lines, i⟩)
  | none => (false, st)

/-- Modelled from the spec: the stateful `finder.find_next` moves the
cursor to the next occurrence (wrapping around) and reports success. -/
def finderFindNextSt (st : BufState) (heading : String) : Bool × BufState :=
  match findNext st.lines heading st.cursor with
  | some i => (true, ⟨st.lines, i⟩)
  | none => (false, st)

/-- Modelled from the spec: `buffer.tmp_cursor()` of `zim.gui.pageview` is
not under the sources; it is a context manager that restores the cursor
position when the block exits, on every exit path. -/
def tmpCursor {α : Type} (body : BufState → α × BufState) (st : BufState) :
    α × BufState :=
  let r := body st
  (r.1, ⟨r.2.lines, st.cursor⟩)

/-- The retry loop of `find_heading`, stateful version: the cursor is where
the finder last moved it, `get_insert_iter` reads it. -/
def findHeadingLoopSt (heading : String) (start : Nat) :
    BufState → Nat → Option Nat × BufState
  | st, 0 => (none, st)
  | st, fuel + 1 =>
    if isHeadingAt st.lines st.cursor then (some st.cursor, st)
    else
      let r := finderFindNextSt st heading
      if r.1 then
        if r.2.cursor = start then (none, r.2)
        else findHeadingLoopSt heading start r.2 fuel
      else (none, r.2)

/-- The body of `find_heading` (everything inside the `tmp_cursor` block),
stateful version. -/
def findHeadingBody (heading : String) (st : BufState) :
    Option Nat × BufState :=
  let r := finderFindSt st heading
  if r.1 then findHeadingLoopSt heading r.2.cursor r.2 (r.2.lines.length + 1)
  else (none, r.2)

/-- `find_heading`, stateful version: the whole search runs inside
`tmp_cursor`, so the cursor is restored on every exit path. -/
def find_heading_st (st : BufState) (heading : String) :
    Option Nat × BufState :=
  tmpCursor (findHeadingBody heading) st

/-- `select_heading(buffer, heading)`: on success place the cursor on the
found heading (`place_cursor` followed by `select_line`) and report true;
otherwise leave the buffer untouched and report false. -/
def select_heading_st (st : BufState) (heading : String) : Bool × BufState :=
  match find_heading_st st heading with
  | (some i, st1) => (true, ⟨st1.lines, i⟩)
  | (none, st1) => (false, st1)

/-! ### List helper lemmas -/

theorem getD_append_left {α : Type} (l l2 : List α) (i : Nat) (d : α)
    (h : i < l.length) : (l ++ l2).getD i d = l.getD i d := by
  induction l generalizing i with
  | nil => simp at h
  | cons a t ih =>
    cases i with
    | zero => simp
    | succ n =>
      simp only [List.cons_append, List.getD_cons_succ]
      exact ih n (by simpa using h)

theorem getD_append_length {α : Type} (l : List α) (a : α) (d : α) :
    (l ++ [a]).getD l.length d = a := by
  induction l with
  | nil => simp
  | cons b t ih =>
    simp only [List.cons_append, List.length_cons, List.getD_cons_succ]
    exact ih

theorem head?_min {l : List Nat} (hl : l.Pairwise (· < ·)) {a : Nat}
    (ha : l.head? = some a) : ∀ b ∈ l, a ≤ b := by
  cases l with
  | nil => simp at ha
  | cons x t =>
    simp only [List.head?_cons, Option.some.injEq] at ha
    subst ha
    intro b hb
    rcases hb with _ | hb
    · exact Nat.le_refl _
    · exact Nat.le_of_lt ((List.pairwise_cons.mp hl).1 b (by assumption))

theorem head?_of_max {l : List Nat} (hl : l.Pairwise (· > ·)) {a : Nat}
    (ha : a ∈ l) (hmax : ∀ b ∈ l, b ≤ a) : l.head? = some a := by
  cases l with
  | nil => simp at ha
  | cons x t =>
    rcases ha with _ | ha
    · rfl
    · exact absurd (hmax x (List.mem_cons_self x t))
        (Nat.not_le_of_lt ((List.pairwise_cons.mp hl).1 a (by assumption)))

theorem filter_le_eq_cons {l : List Nat} (hl : l.Pairwise (· < ·)) {i : Nat}
    (hi : i ∈ l) :
    l.filter (fun j => decide (i ≤ j)) =
      i :: l.filter (fun j => decide (i < j)) := by
  induction l with
  | nil => simp at hi
  | cons a t ih =>
    obtain ⟨hat, ht⟩ := List.pairwise_cons.mp hl
    rcases List.mem_cons.mp hi with rfl | hit
    · have h1 : t.filter (fun j => decide (i ≤ j)) =
          t.filter (fun j => decide (i < j)) :=
        List.filter_congr (fun k hk => by
          simp [Nat.le_of_lt (hat k hk), hat k hk])
      simp [List.filter_cons, h1]
    · have hai : a < i := hat i hit
      have h0 : ¬ i ≤ a := Nat.not_le_of_lt hai
      have h0' : ¬ i < a := fun hc => h0 (Nat.le_of_lt hc)
      simp [List.filter_cons, h0, h0', ih ht hit]

theorem filter_lt_step {l : List Nat} (hl : l.Pairwise (· < ·)) {i j : Nat}
    (hj : (l.filter (fun k => decide (i < k))).head? = some j) :
    l.filter (fun k => decide (i < k)) =
      j :: l.filter (fun k => decide (j < k)) := by
  induction l with
  | nil => simp at hj
  | cons a t ih =>
    obtain ⟨hat, ht⟩ := List.pairwise_cons.mp hl
    by_cases hia : i < a
    · have hja : j = a := by
        simp [List.filter_cons, hia] at hj
        exact hj.symm
      subst hja
      have h1 : t.filter (fun k => decide (i < k)) = t :=
        List.filter_eq_self.mpr (fun k hk => by
          simp [Nat.lt_trans hia (hat k hk)])
      have h2 : t.filter (fun k => decide (j < k)) = t :=
        List.filter_eq_self.mpr (fun k hk => by simp [hat k hk])
      simp [List.filter_cons, hia, h1, h2]
    · have hj' : (t.filter (fun k => decide (i < k))).head? = some j := by
        simpa [List.filter_cons, hia] using hj
      have hmem : j ∈ t := List.mem_of_mem_filter (List.mem_of_mem_head? hj')
      have hja : ¬ j < a := Nat.not_lt_of_lt (hat j hmem)
      simp [List.filter_cons, hia, hja, ih ht hj']

/-! ### Characterization of `find_heading` -/

theorem matchIdxs_sorted (buf : Buffer) (h : String) :
    (matchIdxs buf h).Pairwise (· < ·) :=
  List.Pairwise.filter _ (List.pairwise_lt_range _)

theorem mem_matchIdxs {buf : Buffer} {h : String} {i : Nat} :
    i ∈ matchIdxs buf h ↔ i < buf.length ∧ lineText buf i = h := by
  simp [matchIdxs, List.mem_filter, List.mem_range]

theorem findHeadingLoop_spec (buf : Buffer) (h : String) {start : Nat}
    (hstart : (matchIdxs buf h).head? = some start) :
    ∀ (fuel i : Nat), i ∈ matchIdxs buf h →
      ((matchIdxs buf h).filter (fun k => decide (i < k))).length < fuel →
      findHeadingLoop buf h start i fuel =
        (((matchIdxs buf h).filter (fun k => decide (i ≤ k))).filter
          (fun k => isHeadingAt buf k)).head? := by
  intro fuel
  induction fuel with
  | zero => intro i _ hlen; exact absurd hlen (Nat.not_lt_zero _)
  | succ fuel ih =>
    intro i hi hlen
    have hsorted := matchIdxs_sorted buf h
    have hcons := filter_le_eq_cons hsorted hi
    by_cases htag : isHeadingAt buf i
    · simp [findHeadingLoop, htag, hcons, List.filter_cons]
    · have htag' : isHeadingAt buf i = false := by
        simpa using htag
      cases hF : ((matchIdxs buf h).filter (fun k => decide (i < k))).head? with
      | none =>
        have hFnil := List.head?_eq_none_iff.mp hF
        simp [findHeadingLoop, htag', findNext, hF, hstart, hcons, hFnil,
          List.filter_cons]
      | some j =>
        have hjF : j ∈ (matchIdxs buf h).filter (fun k => decide (i < k)) :=
          List.mem_of_mem_head? hF
        have hij : i < j := by simpa using (List.mem_filter.mp hjF).2
        have hjM : j ∈ matchIdxs buf h := List.mem_of_mem_filter hjF
        have hstart_le : start ≤ i := head?_min hsorted hstart i hi
        have hjs : ¬ j = start := fun hc =>
          absurd (Nat.lt_of_le_of_lt hstart_le hij) (by simp [hc])
        have hstep := filter_lt_step hsorted hF
        have hlen' :
            ((matchIdxs buf h).filter (fun k => decide (j < k))).length < fuel := by
          have : ((matchIdxs buf h).filter (fun k => decide (i < k))).length =
              ((matchIdxs buf h).filter (fun k => decide (j < k))).length + 1 := by
            rw [hstep]; rfl
          omega
        have hIH := ih j hjM hlen'
        have hconsj := filter_le_eq_cons hsorted hjM
        rw [hstep] at hcons
        have hfe : ∀ (G : List Nat),
            List.filter (fun k => isHeadingAt buf k) (i :: G) =
              List.filter (fun k => isHeadingAt buf k) G := by
          intro G
          rw [List.filter_cons]
          simp [htag']
        simp only [findHeadingLoop, htag', findNext, hF, if_neg hjs]
        rw [hIH, hconsj, hcons, hfe]
        simp

theorem find_heading_eq (buf : Buffer) (h : String) :
    find_heading buf h =
      ((matchIdxs buf h).filter (fun k => isHeadingAt buf k)).head? := by
  unfold find_heading findFirst
  cases hM : (matchIdxs buf h).head? with
  | none =>
    rw [List.head?_eq_none_iff] at hM
    simp [hM]
  | some start =>
    have hmem : start ∈ matchIdxs buf h := List.mem_of_mem_head? hM
    have hbound :
        ((matchIdxs buf h).filter (fun k => decide (start < k))).length <
          buf.length + 1 := by
      have h1 := List.length_filter_le (fun k => decide (start < k))
        (matchIdxs buf h)
      have h2 := List.length_filter_le
        (fun i => decide (lineText buf i = h)) (List.range buf.length)
      simp only [List.length_range] at h2
      have : (matchIdxs buf h).length ≤ buf.length := by
        simpa [matchIdxs] using h2
      omega
    show findHeadingLoop buf h start start (buf.length + 1) = _
    rw [findHeadingLoop_spec buf h hM (buf.length + 1) start hmem hbound]
    have hall : (matchIdxs buf h).filter (fun k => decide (start ≤ k)) =
        matchIdxs buf h :=
      List.filter_eq_self.mpr (fun a ha => by
        simpa using head?_min (matchIdxs_sorted buf h) hM a ha)
    rw [hall]

theorem find_heading_lt_length {buf : Buffer} {h : String} {i : Nat}
    (hf : find_heading buf h = some i) : i < buf.length := by
  rw [find_heading_eq] at hf
  have hi : i ∈ (matchIdxs buf h).filter (fun k => isHeadingAt buf k) :=
    List.mem_of_mem_head? hf
  exact (mem_matchIdxs.mp (List.mem_of_mem_filter hi)).1

theorem find_heading_none_of_no_tagged {buf : Buffer} {h : String}
    (hno : ∀ i, i < buf.length →
      ¬(lineText buf i = h ∧ isHeadingAt buf i = true)) :
    find_heading buf h = none := by
  rw [find_heading_eq]
  have hnil : (matchIdxs buf h).filter (fun k => isHeadingAt buf k) = [] := by
    rw [List.eq_nil_iff_forall_not_mem]
    intro k hk
    obtain ⟨hkM, hktag⟩ := List.mem_filter.mp hk
    obtain ⟨hklt, hktext⟩ := mem_matchIdxs.mp hkM
    exact hno k hklt ⟨hktext, hktag⟩
  rw [hnil]
  rfl

theorem matchIdxs_filter_lt_length (buf : Buffer) (h : String) (i : Nat) :
    ((matchIdxs buf h).filter (fun k => decide (i < k))).length ≤
      buf.length := by
  have h1 := List.length_filter_le (fun k => decide (i < k)) (matchIdxs buf h)
  have h2 := List.length_filter_le
    (fun i => decide (lineText buf i = h)) (List.range buf.length)
  simp only [List.length_range] at h2
  have h3 : (matchIdxs buf h).length ≤ buf.length := by
    simpa [matchIdxs] using h2
  omega

/-! ### Claim theorems for the heading locator -/

/-- C3: `find_heading(buffer, text)` returns the location of the first
heading-tagged line whose whole-line text exactly equals the given text
(special characters are literal: the embedding compares texts for
equality, as the source's `re.escape` guarantees), scanning from the start
of the document and skipping earlier occurrences that are not
heading-tagged; it returns `none` when no heading-tagged match exists.  In
particular, in the document `bufNotes` whose text occurs twice with only
the second occurrence tagged as a heading, it returns the second
occurrence. -/
theorem C3_find_heading_first_tagged_match (buf : Buffer) (h : String) :
    find_heading buf h =
        ((matchIdxs buf h).filter (fun k => isHeadingAt buf k)).head?
    ∧ (∀ i, find_heading buf h = some i →
        lineText buf i = h ∧ isHeadingAt buf i = true ∧
          ∀ j, j < i → ¬(lineText buf j = h ∧ isHeadingAt buf j = true))
    ∧ ((∀ i, i < buf.length →
        ¬(lineText buf i = h ∧ isHeadingAt buf i = true)) →
        find_heading buf h = none)
    ∧ find_heading bufNotes ("Notes") = some 2 := by
  refine ⟨find_heading_eq buf h, ?_, fun hno => find_heading_none_of_no_tagged hno,
    by decide⟩
  intro i hf
  rw [find_heading_eq] at hf
  have hSsorted : ((matchIdxs buf h).filter
      (fun k => isHeadingAt buf k)).Pairwise (· < ·) :=
    List.Pairwise.filter _ (matchIdxs_sorted buf h)
  have hiS : i ∈ (matchIdxs buf h).filter (fun k => isHeadingAt buf k) :=
    List.mem_of_mem_head? hf
  obtain ⟨hiM, hitag⟩ := List.mem_filter.mp hiS
  obtain ⟨hilt, hitext⟩ := mem_matchIdxs.mp hiM
  refine ⟨hitext, hitag, ?_⟩
  intro j hj hcontra
  have hjS : j ∈ (matchIdxs buf h).filter (fun k => isHeadingAt buf k) :=
    List.mem_filter.mpr
      ⟨mem_matchIdxs.mpr ⟨Nat.lt_trans hj hilt, hcontra.1⟩, hcontra.2⟩
  exact absurd (head?_min hSsorted hf j hjS) (Nat.not_le_of_lt hj)

/-- Witness for C3 at the duplicate-text document: the result is the
second occurrence, which is heading-tagged, and the first occurrence is
not a heading-tagged match. -/
theorem C3_witness :
    find_heading bufNotes ("Notes") = some 2
    ∧ lineText bufNotes 2 = ("Notes")
    ∧ isHeadingAt bufNotes 2 = true
    ∧ ¬(lineText bufNotes 0 = ("Notes") ∧ isHeadingAt bufNotes 0 = true) := by
  have hmain := C3_find_heading_first_tagged_match bufNotes ("Notes")
  have h2 := hmain.2.1 2 hmain.2.2.2
  exact ⟨hmain.2.2.2, h2.1, h2.2.1, h2.2.2 0 (by decide)⟩

/-- C4: the retry loop of `find_heading` terminates on every buffer: with
any sufficient fuel it computes the same result (the wrap-around guard
stops the loop after it has visited every match once), and on a document
with zero heading-tagged matches for the search text it returns `none`
rather than looping forever. -/
theorem C4_find_heading_terminates (buf : Buffer) (h : String) :
    (∀ fuel, buf.length < fuel →
      (match findFirst buf h with
       | some start => findHeadingLoop buf h start start fuel
       | none => none) = find_heading buf h)
    ∧ ((∀ i, i < buf.length →
        ¬(lineText buf i = h ∧ isHeadingAt buf i = true)) →
        find_heading buf h = none) := by
  constructor
  · intro fuel hfuel
    cases hM : findFirst buf h with
    | none => simp [find_heading, hM]
    | some start =>
      have hM' : (matchIdxs buf h).head? = some start := hM
      have hmem : start ∈ matchIdxs buf h := List.mem_of_mem_head? hM'
      have hb1 : ((matchIdxs buf h).filter
          (fun k => decide (start < k))).length < fuel :=
        Nat.lt_of_le_of_lt (matchIdxs_filter_lt_length buf h start) hfuel
      have hb2 : ((matchIdxs buf h).filter
          (fun k => decide (start < k))).length < buf.length + 1 :=
        Nat.lt_of_le_of_lt (matchIdxs_filter_lt_length buf h start)
          (Nat.lt_succ_self _)
      show findHeadingLoop buf h start start fuel = _
      rw [findHeadingLoop_spec buf h hM' fuel start hmem hb1]
      have : find_heading buf h = findHeadingLoop buf h start start
          (buf.length + 1) := by
        simp [find_heading, hM]
      rw [this, findHeadingLoop_spec buf h hM' (buf.length + 1) start hmem hb2]
  · exact find_heading_none_of_no_tagged

/-- Witness for C4: a one-line document with no heading-tagged match for
the searched text; the loop with any fuel above the bound agrees with
`find_heading`, which returns `none`. -/
theorem C4_witness :
    ((match findFirst plainBuf ("Notes") with
      | some start => findHeadingLoop plainBuf ("Notes") start start 5
      | none => none) = find_heading plainBuf ("Notes"))
    ∧ find_heading plainBuf ("Notes") = none := by
  have h := C4_find_heading_terminates plainBuf ("Notes")
  exact ⟨h.1 5 (by decide), h.2 (by decide)⟩

/-! ### Claim theorems for the gates -/

/-- C5: `can_demote(paths)` is truthy exactly when `paths` is non-empty,
no selected path has depth `≥ 6`, and every selected path whose last index
is 0 (a first child, including every depth-1 path `[0]`) has its parent
path also among the selected paths; in particular `can_demote([[0]])` is
false and `can_demote([[1]])` is true (the tree is not consulted). -/
theorem C5_can_demote_iff (paths : List (List Nat))
    (hne : ∀ p ∈ paths, p ≠ []) :
    (can_demote paths = true ↔
      paths ≠ [] ∧ (∀ p ∈ paths, p.length < 6) ∧
        ∀ p ∈ paths, p.getLast? = some 0 → p.dropLast ∈ paths)
    ∧ can_demote [[0]] = false
    ∧ can_demote [[1]] = true := by
  refine ⟨?_, by decide, by decide⟩
  unfold can_demote
  by_cases h1 : (paths.isEmpty || paths.any fun p => decide (6 ≤ p.length)) = true
  · rw [if_pos h1]
    simp only [List.isEmpty_iff, List.any_eq_true, Bool.or_eq_true,
      decide_eq_true_eq] at h1
    constructor
    · intro hcon; exact absurd hcon (by simp)
    · rintro ⟨hnil, hlt, _⟩
      rcases h1 with h1 | ⟨p, hp, h6⟩
      · exact absurd h1 hnil
      · exact absurd (hlt p hp) (Nat.not_lt_of_le h6)
  · rw [if_neg h1]
    simp only [Bool.or_eq_true, not_or, List.isEmpty_iff, List.any_eq_true,
      decide_eq_true_eq, not_exists, not_and] at h1
    obtain ⟨hnil, h6⟩ := h1
    have hlt : ∀ p ∈ paths, p.length < 6 := fun p hp =>
      Nat.lt_of_not_le (h6 p hp)
    rw [List.all_eq_true]
    constructor
    · intro hall
      refine ⟨hnil, hlt, ?_⟩
      intro p hp hlast
      have := hall p hp
      simp only [Bool.or_eq_true, Bool.not_eq_eq_eq_not, Bool.not_true,
        decide_eq_false_iff_not, decide_eq_true_eq] at this
      rcases this with hne0 | hmem
      · exact absurd (by rw [List.getLastD_eq_getLast?, hlast]; rfl) hne0
      · exact hmem
    · rintro ⟨_, _, hpar⟩
      intro p hp
      simp only [Bool.or_eq_true, Bool.not_eq_eq_eq_not, Bool.not_true,
        decide_eq_false_iff_not, decide_eq_true_eq]
      by_cases hlast : p.getLastD 0 = 0
      · refine Or.inr (hpar p hp ?_)
        rw [List.getLastD_eq_getLast?] at hlast
        cases hl : p.getLast? with
        | none => exact absurd (List.getLast?_eq_none_iff.mp hl) (hne p hp)
        | some x =>
          rw [hl] at hlast
          simp only [Option.getD_some] at hlast
          rw [hlast]
      · exact Or.inl hlast

/-- Witness for C5 at the concrete selections of the claim. -/
theorem C5_witness : can_demote [[1]] = true ∧ can_demote [[0]] = false := by
  have h := C5_can_demote_iff [[1]] (by decide)
  exact ⟨h.1.mpr (by decide), h.2.1⟩

/-! ### The `_format` assertion is reachable through `can_demote` -/

/-- C1 (refuted): the gating does not keep `_format` levels inside 1..6.
With `show_h1 = false` and the headings of `demoHeadings` (two level-1
headings, the second followed by a chain down to level 5), the selection
`[[1]]` passes `can_demote`, yet `on_demote` issues a `_format` request
with level 7 for the walked descendant at depth 5 — the source's
`assert level > 0 and level < 7` fires on a user-reachable call. -/
theorem C1_demote_assert_violation :
    can_demote [[1]] = true
    ∧ ([1, 0, 0, 0, 0], (7 : Int)) ∈ on_demote demoStore false [[1]]
    ∧ formatLevelOk 7 = false := by decide

/-! ### `populate`: length and the `show_h1` drop -/

theorem populateAux_length (rest : List (Int × String)) :
    ∀ (stack : List (Int × Option (List Nat))) (store : Store),
      (populateAux rest stack store).length = store.length + rest.length := by
  induction rest with
  | nil => intro stack store; rfl
  | cons hd tl ih =>
    intro stack store
    obtain ⟨level, text⟩ := hd
    simp only [populateAux, appendRow]
    rw [ih]
    simp only [List.length_append, List.length_cons, List.length_nil]
    omega

theorem populate_true_eq (hs : List (Int × String)) :
    populate hs true = populateAux hs [((-1 : Int), none)] [] := by
  simp [populate]

theorem populate_false_eq (hs : List (Int × String)) :
    populate hs false =
      if hs ≠ [] ∧ (hs.headD ((0 : Int), "")).1 = 1 ∧ (∀ r ∈ hs.tail, 1 < r.1)
      then populateAux hs.tail [((-1 : Int), none)] []
      else populateAux hs [((-1 : Int), none)] [] := by
  by_cases hc : hs ≠ [] ∧ (hs.headD ((0 : Int), "")).1 = 1 ∧
      ∀ r ∈ hs.tail, 1 < r.1
  · have hemp : hs.isEmpty = false := List.isEmpty_eq_false.mpr hc.1
    have e1 : (!false && !hs.isEmpty
        && decide ((hs.headD ((0 : Int), "")).1 = 1)
        && hs.tail.all (fun h => decide (1 < h.1))) = true := by
      rw [Bool.and_eq_true, Bool.and_eq_true, Bool.and_eq_true]
      exact ⟨⟨⟨rfl, by rw [hemp]; rfl⟩, decide_eq_true hc.2.1⟩,
        List.all_eq_true.mpr (fun r hr => decide_eq_true (hc.2.2 r hr))⟩
    rw [if_pos hc]
    show populateAux
      (if (!false && !hs.isEmpty
          && decide ((hs.headD ((0 : Int), "")).1 = 1)
          && hs.tail.all (fun h => decide (1 < h.1))) then
        hs.tail
      else hs) [((-1 : Int), none)] [] = _
    rw [e1]
    simp
  · have e0 : (!false && !hs.isEmpty
        && decide ((hs.headD ((0 : Int), "")).1 = 1)
        && hs.tail.all (fun h => decide (1 < h.1))) = false := by
      by_contra hcon
      rw [Bool.not_eq_false] at hcon
      rw [Bool.and_eq_true, Bool.and_eq_true, Bool.and_eq_true] at hcon
      obtain ⟨⟨⟨-, hni⟩, hhd⟩, hall⟩ := hcon
      rw [Bool.not_eq_true'] at hni
      exact hc ⟨List.isEmpty_eq_false.mp hni, of_decide_eq_true hhd,
        fun r hr => of_decide_eq_true (List.all_eq_true.mp hall r hr)⟩
    rw [if_neg hc]
    show populateAux
      (if (!false && !hs.isEmpty
          && decide ((hs.headD ((0 : Int), "")).1 = 1)
          && hs.tail.all (fun h => decide (1 < h.1))) then
        hs.tail
      else hs) [((-1 : Int), none)] [] = _
    rw [e0]
    simp

/-- C7: with `show_h1` false, the first heading record is dropped from the
tree if and only if it has level 1 and every other record has level
`> 1` (the row count drops by one exactly in that case); on
`[(1, Title), (2, A), (3, B)]` the tree built with `show_h1 = false` has
exactly the two nodes A (depth 1) and B (depth 2), and with
`show_h1 = true` it has three nodes. -/
theorem C7_show_h1_drop (hs : List (Int × String)) (hne : hs ≠ []) :
    ((populate hs false).length = hs.length - 1 ↔
      (hs.headD ((0 : Int), "")).1 = 1 ∧ ∀ r ∈ hs.tail, 1 < r.1)
    ∧ (populate hs true).length = hs.length
    ∧ populate [(1, "Title"), (2, "A"), (3, "B")] false =
        [([0], "A"), ([0, 0], "B")]
    ∧ populate [(1, "Title"), (2, "A"), (3, "B")] true =
        [([0], "Title"), ([0, 0], "A"), ([0, 0, 0], "B")] := by
  have hpos : 0 < hs.length := List.length_pos.mpr hne
  refine ⟨?_, ?_, by decide, by decide⟩
  · rw [populate_false_eq]
    by_cases hc : hs ≠ [] ∧ (hs.headD ((0 : Int), "")).1 = 1 ∧
        ∀ r ∈ hs.tail, 1 < r.1
    · rw [if_pos hc, populateAux_length, List.length_tail]
      simp only [List.length_nil, Nat.zero_add, true_iff]
      exact ⟨hc.2.1, hc.2.2⟩
    · rw [if_neg hc, populateAux_length]
      simp only [List.length_nil, Nat.zero_add]
      constructor
      · intro hlen; omega
      · intro hcond; exact absurd ⟨hne, hcond.1, hcond.2⟩ hc
  · rw [populate_true_eq, populateAux_length]
    simp

/-- Witness for C7 at the records of the claim. -/
theorem C7_witness :
    (populate [(1, "Title"), (2, "A"), (3, "B")] false).length = 3 - 1
    ∧ (populate [(1, "Title"), (2, "A"), (3, "B")] true).length = 3 := by
  have h := C7_show_h1_drop [(1, "Title"), (2, "A"), (3, "B")] (by decide)
  exact ⟨h.1.mpr (by decide), h.2.1⟩

/-! ### Dedupe in the promote/demote batches -/

theorem formatWalk_snd_mem (f : List Nat → Int) :
    ∀ (w seen : List (List Nat)) (q : List Nat),
      q ∈ (formatWalk f w seen).2 ↔ q ∈ w ∨ q ∈ seen := by
  intro w
  induction w with
  | nil =>
    intro seen q
    simp [formatWalk]
  | cons p ps ih =>
    intro seen q
    by_cases hp : p ∈ seen
    · rw [show formatWalk f (p :: ps) seen = formatWalk f ps (p :: seen) by
        rw [formatWalk, if_pos hp]]
      rw [ih]
      simp only [List.mem_cons]
      constructor
      · rintro (hq | rfl | hq)
        · exact Or.inl (Or.inr hq)
        · exact Or.inr hp
        · exact Or.inr hq
      · rintro ((rfl | hq) | hq)
        · exact Or.inr (Or.inl rfl)
        · exact Or.inl hq
        · exact Or.inr (Or.inr hq)
    · have hunf : (formatWalk f (p :: ps) seen).2 =
          (formatWalk f ps (p :: seen)).2 := by
        rw [formatWalk, if_neg hp]
      rw [hunf, ih]
      simp only [List.mem_cons]
      constructor
      · rintro (hq | rfl | hq)
        · exact Or.inl (Or.inr hq)
        · exact Or.inl (Or.inl rfl)
        · exact Or.inr hq
      · rintro ((rfl | hq) | hq)
        · exact Or.inr (Or.inl rfl)
        · exact Or.inl hq
        · exact Or.inr (Or.inr hq)

theorem formatWalk_fst_mem (f : List Nat → Int) :
    ∀ (w seen : List (List Nat)) (p : List Nat),
      p ∈ (formatWalk f w seen).1.map Prod.fst ↔ p ∈ w ∧ p ∉ seen := by
  intro w
  induction w with
  | nil =>
    intro seen p
    simp [formatWalk]
  | cons q ps ih =>
    intro seen p
    by_cases hq : q ∈ seen
    · rw [show formatWalk f (q :: ps) seen = formatWalk f ps (q :: seen) by
        rw [formatWalk, if_pos hq]]
      rw [ih]
      simp only [List.mem_cons]
      constructor
      · rintro ⟨hps, hns⟩
        exact ⟨Or.inr hps, fun hs => hns (Or.inr hs)⟩
      · rintro ⟨hpq | hps, hns⟩
        · exact absurd (show p ∈ seen by rw [hpq]; exact hq) hns
        · refine ⟨hps, fun hcon => ?_⟩
          rcases hcon with hpq | hcon
          · exact hns (by rw [hpq]; exact hq)
          · exact hns hcon
    · have hunf : (formatWalk f (q :: ps) seen).1 =
          (q, f q) :: (formatWalk f ps (q :: seen)).1 := by
        rw [formatWalk, if_neg hq]
      rw [hunf]
      simp only [List.map_cons, List.mem_cons, ih]
      constructor
      · rintro (hpq | ⟨hps, hns⟩)
        · refine ⟨Or.inl hpq, ?_⟩
          rw [hpq]
          exact hq
        · exact ⟨Or.inr hps, fun hs => hns (Or.inr hs)⟩
      · rintro ⟨hpq | hps, hns⟩
        · exact Or.inl hpq
        · by_cases hpq2 : p = q
          · exact Or.inl hpq2
          · refine Or.inr ⟨hps, fun hcon => ?_⟩
            rcases hcon with h1 | h1
            · exact hpq2 h1
            · exact hns h1

theorem formatWalk_fst_nodup (f : List Nat → Int) :
    ∀ (w seen : List (List Nat)),
      ((formatWalk f w seen).1.map Prod.fst).Nodup := by
  intro w
  induction w with
  | nil =>
    intro seen
    simp [formatWalk]
  | cons q ps ih =>
    intro seen
    by_cases hq : q ∈ seen
    · rw [show formatWalk f (q :: ps) seen = formatWalk f ps (q :: seen) by
        rw [formatWalk, if_pos hq]]
      exact ih (q :: seen)
    · have hunf : (formatWalk f (q :: ps) seen).1 =
          (q, f q) :: (formatWalk f ps (q :: seen)).1 := by
        rw [formatWalk, if_neg hq]
      rw [hunf, List.map_cons, List.nodup_cons]
      refine ⟨fun hmem => ?_, ih (q :: seen)⟩
      have := (formatWalk_fst_mem f ps (q :: seen) q).mp hmem
      exact this.2 (List.mem_cons_self q seen)

theorem batchCalls_fst_mem (f : List Nat → Int) (store : Store) :
    ∀ (paths seen : List (List Nat)) (p : List Nat),
      p ∈ (batchCalls f store paths seen).map Prod.fst ↔
        (∃ sel ∈ paths, p ∈ walk store sel) ∧ p ∉ seen := by
  intro paths
  induction paths with
  | nil =>
    intro seen p
    simp [batchCalls]
  | cons sel rest ih =>
    intro seen p
    rw [show batchCalls f store (sel :: rest) seen =
        (formatWalk f (walk store sel) seen).1 ++
          batchCalls f store rest (formatWalk f (walk store sel) seen).2 by
      rw [batchCalls]]
    rw [List.map_append, List.mem_append, formatWalk_fst_mem, ih,
      formatWalk_snd_mem]
    constructor
    · rintro (⟨hw, hns⟩ | ⟨⟨s, hs, hw⟩, hns⟩)
      · exact ⟨⟨sel, List.mem_cons_self sel rest, hw⟩, hns⟩
      · exact ⟨⟨s, List.mem_cons_of_mem _ hs, hw⟩,
          fun hcon => hns (Or.inr hcon)⟩
    · rintro ⟨⟨s, hs, hw⟩, hns⟩
      by_cases hwsel : p ∈ walk store sel
      · exact Or.inl ⟨hwsel, hns⟩
      · rcases List.mem_cons.mp hs with rfl | hs'
        · exact absurd hw hwsel
        · exact Or.inr ⟨⟨s, hs', hw⟩, fun hcon => by
            rcases hcon with hcon | hcon
            · exact hwsel hcon
            · exact hns hcon⟩

theorem batchCalls_fst_nodup (f : List Nat → Int) (store : Store) :
    ∀ (paths seen : List (List Nat)),
      ((batchCalls f store paths seen).map Prod.fst).Nodup := by
  intro paths
  induction paths with
  | nil =>
    intro seen
    simp [batchCalls]
  | cons sel rest ih =>
    intro seen
    rw [show batchCalls f store (sel :: rest) seen =
        (formatWalk f (walk store sel) seen).1 ++
          batchCalls f store rest (formatWalk f (walk store sel) seen).2 by
      rw [batchCalls]]
    rw [List.map_append, List.nodup_append]
    refine ⟨formatWalk_fst_nodup f _ _, ih _, ?_⟩
    intro p hp1 hp2
    have h1 := (formatWalk_fst_mem f _ _ p).mp hp1
    have h2 := (batchCalls_fst_mem f store _ _ p).mp hp2
    rw [formatWalk_snd_mem] at h2
    exact h2.2 (Or.inl h1.1)

theorem mem_walk {store : Store} {p q : List Nat} :
    q ∈ walk store p ↔ ∃ r ∈ store, r.1 = q ∧ p.isPrefixOf q = true := by
  simp only [walk, List.mem_map, List.mem_filter]
  constructor
  · rintro ⟨r, ⟨hr, hpre⟩, rfl⟩
    exact ⟨r, hr, rfl, hpre⟩
  · rintro ⟨r, hr, rfl, hpre⟩
    exact ⟨r, ⟨hr, hpre⟩, rfl⟩

/-- C8: a single promote (resp. demote) batch issues exactly one `_format`
call, with exactly one new level, per affected tree position, even when
the selection contains both a node and one of its ancestors: the emitted
path list has no duplicates, and a path is formatted iff the gate passed
and some selected path is a prefix of it (i.e. it lies in the subtree of a
selected node). -/
theorem C8_format_once_per_position (store : Store) (sh : Bool)
    (paths : List (List Nat)) :
    ((on_promote store sh paths).map Prod.fst).Nodup
    ∧ (∀ p, p ∈ (on_promote store sh paths).map Prod.fst ↔
        can_promote paths = true ∧
          ∃ sel ∈ paths, ∃ r ∈ store, r.1 = p ∧ sel.isPrefixOf p = true)
    ∧ ((on_demote store sh paths).map Prod.fst).Nodup
    ∧ (∀ p, p ∈ (on_demote store sh paths).map Prod.fst ↔
        can_demote paths = true ∧
          ∃ sel ∈ paths, ∃ r ∈ store, r.1 = p ∧ sel.isPrefixOf p = true) := by
  refine ⟨?_, ?_, ?_, ?_⟩
  · unfold on_promote
    split
    · exact batchCalls_fst_nodup _ store paths []
    · simp
  · intro p
    unfold on_promote
    split
    · rename_i hgate
      rw [batchCalls_fst_mem]
      simp only [List.not_mem_nil, not_false_iff, and_true, hgate, true_and]
      constructor
      · rintro ⟨sel, hs, hw⟩
        obtain ⟨r, hr, rfl, hpre⟩ := mem_walk.mp hw
        exact ⟨sel, hs, r, hr, rfl, hpre⟩
      · rintro ⟨sel, hs, r, hr, rfl, hpre⟩
        exact ⟨sel, hs, mem_walk.mpr ⟨r, hr, rfl, hpre⟩⟩
    · rename_i hgate
      simp only [List.map_nil, List.not_mem_nil, false_iff, not_and]
      intro hcon
      exact absurd hcon hgate
  · unfold on_demote
    split
    · exact batchCalls_fst_nodup _ store paths []
    · simp
  · intro p
    unfold on_demote
    split
    · rename_i hgate
      rw [batchCalls_fst_mem]
      simp only [List.not_mem_nil, not_false_iff, and_true, hgate, true_and]
      constructor
      · rintro ⟨sel, hs, hw⟩
        obtain ⟨r, hr, rfl, hpre⟩ := mem_walk.mp hw
        exact ⟨sel, hs, r, hr, rfl, hpre⟩
      · rintro ⟨sel, hs, r, hr, rfl, hpre⟩
        exact ⟨sel, hs, mem_walk.mpr ⟨r, hr, rfl, hpre⟩⟩
    · rename_i hgate
      simp only [List.map_nil, List.not_mem_nil, false_iff, not_and]
      intro hcon
      exact absurd hcon hgate

/-! ### `select_section` spans -/

/-- C6 (refuted as stated): in `abcStore`/`abcBuffer` the node B at path
`[0, 0]` has no next sibling, so `select_section` selects from B to the
document end — yet B is not the last heading of the document (the heading
C is at line 2).  The document-end fallback is decided by the next
sibling in the tree, not by being the last heading. -/
theorem C6_counterexample :
    select_section abcStore abcBuffer [0, 0] = some (1, abcBuffer.length)
    ∧ ¬(∀ j, j < abcBuffer.length → isHeadingAt abcBuffer j = true → j ≤ 1) := by
  exact ⟨by decide, by decide⟩

/-- C6 (amended): `select_section(path)` computes its span as in
`locate_range`: when an end text is available (the tree has a node at the
next-sibling path of `path`, with non-empty text) it selects from the
located start heading to the located end heading; it selects from the
start heading to the document end exactly when the tree has no node at the
next-sibling path (or that node's text is empty) — not exactly when the
start heading is the last heading of the document; and if locating the
start or the end fails, no selection is made. -/
theorem C6_select_section_span (store : Store) (buf : Buffer)
    (path : List Nat) (st : String) (hst : textAt store path = some st) :
    (textAt store (nextSibling path) = none →
      select_section store buf path =
        (find_heading buf st).map (fun s => (s, buf.length)))
    ∧ (∀ t, textAt store (nextSibling path) = some t → t ≠ "" →
        select_section store buf path =
          (find_heading buf st).bind (fun s =>
            (find_heading buf t).map (fun e => (s, e))))
    ∧ (find_heading buf st = none → select_section store buf path = none)
    ∧ (∀ s e, select_section store buf path = some (s, e) →
        (e = buf.length ↔
          (textAt store (nextSibling path) = none ∨
            textAt store (nextSibling path) = some ("")))) := by
  refine ⟨?_, ?_, ?_, ?_⟩
  · intro hsib
    cases hf : find_heading buf st with
    | none => simp [select_section, hst, hsib, hf]
    | some s => simp [select_section, hst, hsib, hf]
  · intro t hsib ht
    cases hf : find_heading buf st with
    | none => simp [select_section, hst, hsib, hf, ht]
    | some s =>
      cases hf2 : find_heading buf t with
      | none => simp [select_section, hst, hsib, hf, hf2, ht]
      | some e => simp [select_section, hst, hsib, hf, hf2, ht]
  · intro hf
    cases hsib : textAt store (nextSibling path) with
    | none => simp [select_section, hst, hsib, hf]
    | some t =>
      by_cases ht : t = ""
      · simp [select_section, hst, hsib, hf, ht]
      · simp [select_section, hst, hsib, hf, ht]
  · intro s e hsel
    cases hsib : textAt store (nextSibling path) with
    | none =>
      cases hf : find_heading buf st with
      | none => simp [select_section, hst, hsib, hf] at hsel
      | some s1 =>
        simp only [select_section, hst, hsib, hf] at hsel
        simp only [Option.some.injEq, Prod.mk.injEq] at hsel
        exact ⟨fun _ => Or.inl rfl, fun _ => hsel.2.symm⟩
    | some t =>
      by_cases ht : t = ""
      · subst ht
        cases hf : find_heading buf st with
        | none => simp [select_section, hst, hsib, hf] at hsel
        | some s1 =>
          rw [show select_section store buf path = some (s1, buf.length) by
            simp [select_section, hst, hsib, hf]] at hsel
          simp only [Option.some.injEq, Prod.mk.injEq] at hsel
          exact ⟨fun _ => Or.inr rfl, fun _ => hsel.2.symm⟩
      · cases hf : find_heading buf st with
        | none => simp [select_section, hst, hsib, hf, ht] at hsel
        | some s1 =>
          cases hf2 : find_heading buf t with
          | none => simp [select_section, hst, hsib, hf, hf2, ht] at hsel
          | some e1 =>
            simp only [select_section, hst, hsib, hf, hf2, if_neg ht] at hsel
            simp only [Option.some.injEq, Prod.mk.injEq] at hsel
            have helt : e1 < buf.length := find_heading_lt_length hf2
            constructor
            · intro hcon
              rw [← hsel.2] at hcon
              omega
            · intro hcon
              rcases hcon with hcon | hcon
              · exact absurd hcon (by simp)
              · simp only [Option.some.injEq] at hcon
                exact absurd hcon ht

/-- Witness for the amended C6: the node C at path `[1]` of `abcStore` has
no next sibling; the selection runs from C's line to the document end. -/
theorem C6_witness :
    select_section abcStore abcBuffer [1] =
      (find_heading abcBuffer ("C")).map (fun s => (s, abcBuffer.length)) := by
  have h := C6_select_section_span abcStore abcBuffer [1] ("C") (by decide)
  exact h.1 (by decide)

/-! ### The promote/demote round trip -/

/-- C9 (refuted as stated): the selection `[[0, 1]]` on `rtDoc` passes
both gates, yet promoting then demoting it leaves heading c at level 1
instead of restoring its original level 2: the intermediate rebuild moves
c to the top level, so the stale path `[0, 1]` addresses no node and the
demote pass formats nothing. -/
theorem C9_counterexample :
    can_promote [[0, 1]] = true
    ∧ can_demote [[0, 1]] = true
    ∧ promoteThenDemote rtDoc true [[0, 1]] = [(1, "a"), (2, "b"), (1, "c")]
    ∧ promoteThenDemote rtDoc true [[0, 1]] ≠ rtDoc := by decide

theorem batchCalls_nil_of_walks_empty (f : List Nat → Int) (store : Store) :
    ∀ (paths seen : List (List Nat)), (∀ p ∈ paths, walk store p = []) →
      batchCalls f store paths seen = [] := by
  intro paths
  induction paths with
  | nil => intro seen _; rfl
  | cons sel rest ih =>
    intro seen hw
    rw [show batchCalls f store (sel :: rest) seen =
        (formatWalk f (walk store sel) seen).1 ++
          batchCalls f store rest (formatWalk f (walk store sel) seen).2 by
      rw [batchCalls]]
    rw [hw sel (List.mem_cons_self sel rest)]
    rw [show formatWalk f [] seen = ([], seen) from rfl]
    exact ih seen (fun p hp => hw p (List.mem_cons_of_mem sel hp))

/-- C9 (amended): promote and demote assign absolute depth-derived levels
and restructure the tree, so promoting then demoting the same selection
need not restore levels: whenever the rebuilt tree has no node under any
of the selection's (now stale) paths, the demote pass issues no `_format`
request at all and every heading keeps its post-promote level; on `rtDoc`
with selection `[[0, 1]]` and `show_h1 = true` the round trip ends with
c at level 1 instead of its original level 2. -/
theorem C9_round_trip (store1 : Store) (doc1 : List (Int × String))
    (sh : Bool) (paths : List (List Nat))
    (hempty : ∀ p ∈ paths, walk store1 p = []) :
    applyBatch store1 doc1 (on_demote store1 sh paths) = doc1
    ∧ promoteThenDemote rtDoc true [[0, 1]] = [(1, "a"), (2, "b"), (1, "c")] := by
  refine ⟨?_, by decide⟩
  unfold on_demote
  split
  · rw [batchCalls_nil_of_walks_empty _ store1 paths [] hempty]
    rfl
  · rfl

/-- Witness for the amended C9: after the counterexample's promote phase
the rebuilt tree has no node under `[0, 1]`, so the demote batch leaves
the document unchanged. -/
theorem C9_witness :
    applyBatch (populate [(1, "a"), (2, "b"), (1, "c")] true)
        [(1, "a"), (2, "b"), (1, "c")]
        (on_demote (populate [(1, "a"), (2, "b"), (1, "c")] true) true
          [[0, 1]])
      = [(1, "a"), (2, "b"), (1, "c")] :=
  (C9_round_trip (populate [(1, "a"), (2, "b"), (1, "c")] true)
    [(1, "a"), (2, "b"), (1, "c")] true [[0, 1]] (by decide)).1

/-! ### Frame conditions of the heading search -/

theorem findHeadingLoopSt_spec (h : String) (start : Nat) :
    ∀ (fuel : Nat) (st : BufState),
      (findHeadingLoopSt h start st fuel).2.lines = st.lines
      ∧ (findHeadingLoopSt h start st fuel).1 =
          findHeadingLoop st.lines h start st.cursor fuel := by
  intro fuel
  induction fuel with
  | zero => intro st; exact ⟨rfl, rfl⟩
  | succ fuel ih =>
    intro st
    by_cases htag : isHeadingAt st.lines st.cursor
    · simp [findHeadingLoopSt, findHeadingLoop, htag]
    · have htag' : isHeadingAt st.lines st.cursor = false := by simpa using htag
      cases hn : findNext st.lines h st.cursor with
      | none =>
        simp [findHeadingLoopSt, findHeadingLoop, htag', finderFindNextSt, hn]
      | some j =>
        by_cases hjs : j = start
        · simp [findHeadingLoopSt, findHeadingLoop, htag', finderFindNextSt,
            hn, hjs]
        · have hrec := ih ⟨st.lines, j⟩
          simp only [findHeadingLoopSt, findHeadingLoop, htag',
            finderFindNextSt, hn, if_neg hjs, Bool.false_eq_true, if_false]
          exact hrec

theorem find_heading_st_spec (st : BufState) (h : String) :
    (find_heading_st st h).2 = st
    ∧ (find_heading_st st h).1 = find_heading st.lines h := by
  unfold find_heading_st tmpCursor findHeadingBody finderFindSt
  cases hf : findFirst st.lines h with
  | none =>
    simp [find_heading, hf]
  | some i =>
    have hsp := findHeadingLoopSt_spec h i (st.lines.length + 1) ⟨st.lines, i⟩
    constructor
    · show (⟨(findHeadingLoopSt h i ⟨st.lines, i⟩
        (st.lines.length + 1)).2.lines, st.cursor⟩ : BufState) = st
      rw [hsp.1]
    · show (findHeadingLoopSt h i ⟨st.lines, i⟩ (st.lines.length + 1)).1 = _
      rw [hsp.2]
      simp [find_heading, hf]

/-- C10: `find_heading` never mutates the buffer's lines and restores the
cursor on every exit path (the whole search runs inside `tmp_cursor`), in
both the found and the not-found case — its result agrees with the pure
search; the cursor is repositioned only by `select_heading`, and only when
the heading was found. -/
theorem C10_find_heading_frame (st : BufState) (h : String) :
    (find_heading_st st h).2 = st
    ∧ (find_heading_st st h).1 = find_heading st.lines h
    ∧ (select_heading_st st h).2.lines = st.lines
    ∧ (find_heading st.lines h = none →
        (select_heading_st st h) = (false, st))
    ∧ (∀ i, find_heading st.lines h = some i →
        (select_heading_st st h) = (true, ⟨st.lines, i⟩)) := by
  obtain ⟨hstate, hres⟩ := find_heading_st_spec st h
  have hpair : find_heading_st st h = (find_heading st.lines h, st) :=
    Prod.ext hres hstate
  refine ⟨hstate, hres, ?_, ?_, ?_⟩
  · unfold select_heading_st
    rw [hpair]
    cases hf : find_heading st.lines h <;> rfl
  · intro hf
    unfold select_heading_st
    rw [hpair, hf]
  · intro i hf
    unfold select_heading_st
    rw [hpair, hf]

/-- Witness for C10 at the duplicate-text document: the search leaves the
buffer state untouched, and selecting the heading moves the cursor to the
found line. -/
theorem C10_witness :
    (find_heading_st ⟨bufNotes, 0⟩ ("Notes")).2 = ⟨bufNotes, 0⟩
    ∧ select_heading_st ⟨bufNotes, 0⟩ ("Notes") = (true, ⟨bufNotes, 2⟩) := by
  have h := C10_find_heading_frame ⟨bufNotes, 0⟩ ("Notes")
  exact ⟨h.1, h.2.2.2.2 2 (by decide)⟩

/-! ### The stack pass builds the most-recent-smaller-level parenthood -/

theorem lastSmallerAux_some {L : List Int} {t : Int} :
    ∀ {m j : Nat}, lastSmallerAux L t m = some j →
      j < m ∧ L.getD j 0 < t ∧ ∀ k, j < k → k < m → ¬ L.getD k 0 < t := by
  intro m
  induction m with
  | zero => intro j hj; simp [lastSmallerAux] at hj
  | succ m ih =>
    intro j hj
    unfold lastSmallerAux at hj
    split at hj
    · rename_i hm
      cases hj
      exact ⟨Nat.lt_succ_self m, hm, fun k hk1 hk2 => absurd hk2 (by omega)⟩
    · rename_i hm
      obtain ⟨h1, h2, h3⟩ := ih hj
      refine ⟨Nat.lt_succ_of_lt h1, h2, fun k hk1 hk2 => ?_⟩
      rcases Nat.lt_succ_iff_lt_or_eq.mp hk2 with hk | rfl
      · exact h3 k hk1 hk
      · exact hm

theorem lastSmallerAux_none {L : List Int} {t : Int} :
    ∀ {m : Nat}, lastSmallerAux L t m = none →
      ∀ j, j < m → ¬ L.getD j 0 < t := by
  intro m
  induction m with
  | zero => intro _ j hj; exact absurd hj (Nat.not_lt_zero j)
  | succ m ih =>
    intro hm j hj
    unfold lastSmallerAux at hm
    split at hm
    · exact absurd hm (by simp)
    · rename_i hlev
      rcases Nat.lt_succ_iff_lt_or_eq.mp hj with hk | rfl
      · exact ih hm j hk
      · exact hlev

theorem getD_map_fst :
    ∀ (records : List (Int × String)) (k : Nat),
      (records.map Prod.fst).getD k 0 = (records.getD k ((0 : Int), "")).1 := by
  intro records
  induction records with
  | nil => intro k; simp
  | cons r t ih =>
    intro k
    cases k with
    | zero => simp
    | succ k =>
      simp only [List.map_cons, List.getD_cons_succ]
      exact ih k

theorem stack_dropWhile (L : List Int) (store : Store) (lvl : Int)
    (hlv : (-1 : Int) < lvl) :
    ∀ (js : List Nat),
      js.Pairwise (fun a b => L.getD b 0 < L.getD a 0) →
      ((js.map (fun j => (L.getD j 0, some (store.getD j ([], "")).1))
          ++ [((-1 : Int), (none : Option (List Nat)))]).dropWhile
        (fun e => decide (lvl ≤ e.1)))
      = (js.filter (fun j => decide (L.getD j 0 < lvl))).map
            (fun j => (L.getD j 0, some (store.getD j ([], "")).1))
          ++ [((-1 : Int), (none : Option (List Nat)))] := by
  intro js
  induction js with
  | nil =>
    intro _
    have hfalse : (decide (lvl ≤ ((-1 : Int), (none : Option (List Nat))).1))
        = false := by
      simp only [decide_eq_false_iff_not, Int.not_le]
      exact hlv
    simp [List.dropWhile_cons, hfalse]
  | cons j t ih =>
    intro hpw
    obtain ⟨hjt, htpw⟩ := List.pairwise_cons.mp hpw
    by_cases hj : L.getD j 0 < lvl
    · have hstop : ¬ ((fun (e : Int × Option (List Nat)) => decide (lvl ≤ e.1))
          ((L.getD j 0, some (store.getD j ([], "")).1)) = true) := by
        show ¬ (decide (lvl ≤ L.getD j 0) = true)
        simp only [decide_eq_true_eq]
        exact Int.not_le.mpr hj
      have hkeep : t.filter (fun b => decide (L.getD b 0 < lvl)) = t :=
        List.filter_eq_self.mpr (fun b hb =>
          decide_eq_true (lt_trans (hjt b hb) hj))
      rw [List.map_cons, List.cons_append, List.dropWhile_cons, if_neg hstop,
        List.filter_cons, if_pos (decide_eq_true hj), hkeep, List.map_cons,
        List.cons_append]
    · have hgo : ((fun (e : Int × Option (List Nat)) => decide (lvl ≤ e.1))
          ((L.getD j 0, some (store.getD j ([], "")).1))) = true := by
        show decide (lvl ≤ L.getD j 0) = true
        exact decide_eq_true (Int.not_lt.mp hj)
      have hdrop : ¬ ((decide (L.getD j 0 < lvl)) = true) := by
        simp only [decide_eq_true_eq]
        exact hj
      rw [List.map_cons, List.cons_append, List.dropWhile_cons, if_pos hgo,
        List.filter_cons, if_neg hdrop]
      exact ih htpw

theorem stack_head_after_drop (L : List Int) (store : Store) (n : Nat)
    (js : List Nat)
    (hpw : js.Pairwise (· > ·))
    (hbound : ∀ j ∈ js, j < n)
    (hcomp : ∀ j, j < n →
      ((∀ k, j < k → k < n → L.getD j 0 < L.getD k 0) ↔ j ∈ js)) :
    ((js.filter (fun j => decide (L.getD j 0 < L.getD n 0))).map
        (fun j => (L.getD j 0, some (store.getD j ([], "")).1))
      ++ [((-1 : Int), (none : Option (List Nat)))]).headD
        ((-1 : Int), (none : Option (List Nat)))
    = match lastSmaller L n with
      | some j => (L.getD j 0, some (store.getD j ([], "")).1)
      | none => ((-1 : Int), (none : Option (List Nat))) := by
  cases hls : lastSmaller L n with
  | none =>
    have hno := lastSmallerAux_none hls
    have hnil : js.filter (fun j => decide (L.getD j 0 < L.getD n 0)) = [] :=
      List.filter_eq_nil_iff.mpr (fun j hj => by
        simp only [decide_eq_true_eq]
        exact hno j (hbound j hj))
    rw [hnil]
    rfl
  | some jstar =>
    obtain ⟨hjn, hjlt, hjmax⟩ := lastSmallerAux_some hls
    have hjmem : jstar ∈ js := by
      rw [← hcomp jstar hjn]
      intro k hk1 hk2
      have hnotlt := hjmax k hk1 hk2
      exact lt_of_lt_of_le hjlt (Int.not_lt.mp hnotlt)
    have hjfil : jstar ∈ js.filter
        (fun j => decide (L.getD j 0 < L.getD n 0)) :=
      List.mem_filter.mpr ⟨hjmem, decide_eq_true hjlt⟩
    have hfilpw : (js.filter (fun j => decide (L.getD j 0 < L.getD n 0))).Pairwise
        (· > ·) := List.Pairwise.filter _ hpw
    have hmax : ∀ b ∈ js.filter (fun j => decide (L.getD j 0 < L.getD n 0)),
        b ≤ jstar := by
      intro b hb
      obtain ⟨hbjs, hblt⟩ := List.mem_filter.mp hb
      by_contra hcon
      have hjb : jstar < b := Nat.lt_of_not_le hcon
      exact hjmax b hjb (hbound b hbjs) (of_decide_eq_true hblt)
    have hhead := head?_of_max hfilpw hjfil hmax
    cases hF : js.filter (fun j => decide (L.getD j 0 < L.getD n 0)) with
    | nil =>
      rw [hF] at hhead
      simp at hhead
    | cons a r =>
      rw [hF] at hhead
      simp only [List.head?_cons, Option.some.injEq] at hhead
      subst hhead
      rfl

theorem parentSpec_append (L : List Int) (store : Store) (row : Row)
    (i : Nat) (hle : i ≤ store.length) :
    parentSpec L (store ++ [row]) i = parentSpec L store i := by
  unfold parentSpec
  cases hls : lastSmaller L i with
  | none => rfl
  | some j =>
    have hj : j < i := (lastSmallerAux_some hls).1
    show ((store ++ [row]).getD j ([], "")).1 = (store.getD j ([], "")).1
    rw [getD_append_left _ _ _ _ (lt_of_lt_of_le hj hle)]

theorem populateAux_spec (L : List Int) (hpos : ∀ j, (-1 : Int) < L.getD j 0) :
    ∀ (rest : List (Int × String)) (n : Nat) (store : Store)
      (stack : List (Int × Option (List Nat))),
      (∀ k, k < rest.length →
        (rest.getD k ((0 : Int), "")).1 = L.getD (n + k) 0) →
      store.length = n →
      StackInv L n store stack →
      (∀ i, i < n → (store.getD i ([], "")).1.dropLast = parentSpec L store i) →
      (populateAux rest stack store).length = n + rest.length
      ∧ (∀ i, i < n → (populateAux rest stack store).getD i ([], "") =
          store.getD i ([], ""))
      ∧ (∀ i, i < n + rest.length →
          ((populateAux rest stack store).getD i ([], "")).1.dropLast =
            parentSpec L (populateAux rest stack store) i)
      ∧ (∀ k, k < rest.length →
          ((populateAux rest stack store).getD (n + k) ([], "")).2 =
            (rest.getD k ((0 : Int), "")).2) := by
  intro rest
  induction rest with
  | nil =>
    intro n store stack _ hlen hinv hdone
    refine ⟨by simpa [populateAux] using hlen, fun i _ => rfl, ?_, ?_⟩
    · intro i hi
      exact hdone i (by simpa using hi)
    · intro k hk
      exact absurd hk (by simp)
  | cons hd rest2 ih =>
    intro n store stack hrest hlen hinv hdone
    obtain ⟨level, text⟩ := hd
    obtain ⟨js, hstack, hpw, hbound, hcomp⟩ := hinv
    have hlev : level = L.getD n 0 := by
      have h0 := hrest 0 (by simp)
      simpa using h0
    have hlevpw : js.Pairwise (fun a b => L.getD b 0 < L.getD a 0) := by
      refine List.Pairwise.imp_of_mem ?_ hpw
      intro a b ha hb hab
      exact (hcomp b (hbound b hb)).mpr hb a hab (hbound a ha)
    have hdw : stack.dropWhile (fun e => decide (level ≤ e.1)) =
        (js.filter (fun j => decide (L.getD j 0 < L.getD n 0))).map
            (fun j => (L.getD j 0, some (store.getD j ([], "")).1))
          ++ [((-1 : Int), (none : Option (List Nat)))] := by
      rw [hstack, hlev]
      exact stack_dropWhile L store (L.getD n 0) (hpos n) js hlevpw
    have hhead := stack_head_after_drop L store n js hpw hbound hcomp
    have hppD : (((stack.dropWhile (fun e => decide (level ≤ e.1))).headD
        ((-1 : Int), (none : Option (List Nat)))).2).getD [] =
          parentSpec L store n := by
      rw [hdw, hhead]
      unfold parentSpec
      cases lastSmaller L n <;> rfl
    have hunf : populateAux ((level, text) :: rest2) stack store =
        populateAux rest2
          ((level, some (parentSpec L store n
              ++ [childCount store (parentSpec L store n)]))
            :: stack.dropWhile (fun e => decide (level ≤ e.1)))
          (store ++ [(parentSpec L store n
              ++ [childCount store (parentSpec L store n)], text)]) := by
      simp only [populateAux, appendRow]
      rw [hppD]
    have hget : (store ++ [(parentSpec L store n
        ++ [childCount store (parentSpec L store n)], text)]).getD n ([], "") =
        (parentSpec L store n
          ++ [childCount store (parentSpec L store n)], text) := by
      rw [← hlen]
      exact getD_append_length store _ _
    have hlen' : (store ++ [(parentSpec L store n
        ++ [childCount store (parentSpec L store n)], text)]).length = n + 1 := by
      simp [hlen]
    have hrest' : ∀ k, k < rest2.length →
        (rest2.getD k ((0 : Int), "")).1 = L.getD (n + 1 + k) 0 := by
      intro k hk
      have hk1 := hrest (k + 1) (by simpa using Nat.succ_lt_succ hk)
      have hidx : n + (k + 1) = n + 1 + k := by omega
      rw [List.getD_cons_succ, hidx] at hk1
      exact hk1
    have hdone' : ∀ i, i < n + 1 →
        ((store ++ [(parentSpec L store n
            ++ [childCount store (parentSpec L store n)], text)]).getD i
          ([], "")).1.dropLast =
        parentSpec L (store ++ [(parentSpec L store n
            ++ [childCount store (parentSpec L store n)], text)]) i := by
      intro i hi
      rcases Nat.lt_succ_iff_lt_or_eq.mp hi with hin | rfl
      · rw [getD_append_left _ _ _ _ (by omega),
          parentSpec_append L store _ i (by omega)]
        exact hdone i hin
      · rw [hget, parentSpec_append L store _ i (by omega)]
        exact List.dropLast_concat
    have hinv' : StackInv L (n + 1)
        (store ++ [(parentSpec L store n
            ++ [childCount store (parentSpec L store n)], text)])
        ((level, some (parentSpec L store n
            ++ [childCount store (parentSpec L store n)]))
          :: stack.dropWhile (fun e => decide (level ≤ e.1))) := by
      refine ⟨n :: js.filter (fun j => decide (L.getD j 0 < L.getD n 0)),
        ?_, ?_, ?_, ?_⟩
      · rw [List.map_cons, List.cons_append, hdw]
        have hfx : (js.filter
            (fun j => decide (L.getD j 0 < L.getD n 0))).map
              (fun j => (L.getD j 0, some ((store ++ [(parentSpec L store n
                ++ [childCount store (parentSpec L store n)], text)]).getD j
                  ([], "")).1)) =
            (js.filter (fun j => decide (L.getD j 0 < L.getD n 0))).map
              (fun j => (L.getD j 0, some (store.getD j ([], "")).1)) := by
          refine List.map_congr_left ?_
          intro j hj
          have hjn : j < n := hbound j (List.mem_of_mem_filter hj)
          rw [getD_append_left _ _ _ _ (by omega)]
        rw [hfx, hget, hlev]
      · refine List.pairwise_cons.mpr ⟨?_, List.Pairwise.filter _ hpw⟩
        intro b hb
        exact hbound b (List.mem_of_mem_filter hb)
      · intro j hj
        rcases List.mem_cons.mp hj with rfl | hj
        · exact Nat.lt_succ_self j
        · exact Nat.lt_succ_of_lt (hbound j (List.mem_of_mem_filter hj))
      · intro j hj
        rcases Nat.lt_succ_iff_lt_or_eq.mp hj with hjn | rfl
        · constructor
          · intro hall
            have hjs : j ∈ js := (hcomp j hjn).mp
              (fun k hk1 hk2 => hall k hk1 (by omega))
            have hjlt : L.getD j 0 < L.getD n 0 :=
              hall n hjn (Nat.lt_succ_self n)
            exact List.mem_cons.mpr (Or.inr
              (List.mem_filter.mpr ⟨hjs, decide_eq_true hjlt⟩))
          · intro hmem k hk1 hk2
            rcases List.mem_cons.mp hmem with rfl | hfil
            · exact absurd hjn (by omega)
            · obtain ⟨hjs, hjd⟩ := List.mem_filter.mp hfil
              rcases Nat.lt_succ_iff_lt_or_eq.mp hk2 with hkn | rfl
              · exact (hcomp j hjn).mpr hjs k hk1 hkn
              · exact of_decide_eq_true hjd
        · constructor
          · intro _
            exact List.mem_cons_self _ _
          · intro _ k hk1 hk2
            exact absurd hk1 (by omega)
    obtain ⟨c1, c2, c3, c4⟩ := ih (n + 1)
      (store ++ [(parentSpec L store n
          ++ [childCount store (parentSpec L store n)], text)])
      ((level, some (parentSpec L store n
          ++ [childCount store (parentSpec L store n)]))
        :: stack.dropWhile (fun e => decide (level ≤ e.1)))
      hrest' hlen' hinv' hdone'
    refine ⟨?_, ?_, ?_, ?_⟩
    · rw [hunf, c1]
      simp only [List.length_cons]
      omega
    · intro i hi
      rw [hunf, c2 i (by omega), getD_append_left _ _ _ _ (by omega)]
    · intro i hi
      rw [hunf]
      refine c3 i ?_
      simp only [List.length_cons] at hi
      omega
    · intro k hk
      cases k with
      | zero =>
        rw [hunf]
        have hc2 := c2 n (Nat.lt_succ_self n)
        rw [show n + 0 = n from rfl, hc2, hget]
        rfl
      | succ k =>
        rw [hunf]
        have hidx : n + (k + 1) = n + 1 + k := by omega
        rw [hidx, List.getD_cons_succ]
        refine c4 k ?_
        simp only [List.length_cons] at hk
        omega

/-- C2: `ToCTreeModel.populate` builds the tree by the stack pass
(sentinel level `-1`; pop while the top level is `≥` the current level;
append under the new top): the construction is a total function, one row
per record, each row carrying the record's text, and each record's node
has as parent the node of the most recent earlier record with strictly
smaller level (`dropLast` of its path is that record's path), or the
virtual root (`dropLast = []`) if no such record exists — for arbitrary,
including non-monotonic or gapped, level sequences (any levels above the
sentinel, as the source asserts `level > -1`).  In particular for
`[(1, A), (3, B)]` the node B is a depth-2 child of A. -/
theorem C2_populate_stack_pass (records : List (Int × String))
    (hpos : ∀ r ∈ records, (-1 : Int) < r.1) :
    (populateAux records [((-1 : Int), none)] []).length = records.length
    ∧ (∀ i, i < records.length →
        ((populateAux records [((-1 : Int), none)] []).getD i ([], "")).2 =
          (records.getD i ((0 : Int), "")).2)
    ∧ (∀ i, i < records.length →
        ((populateAux records [((-1 : Int), none)] []).getD i
            ([], "")).1.dropLast =
          parentSpec (records.map Prod.fst)
            (populateAux records [((-1 : Int), none)] []) i)
    ∧ populate records true = populateAux records [((-1 : Int), none)] []
    ∧ populate [(1, "A"), (3, "B")] true = [([0], "A"), ([0, 0], "B")] := by
  have hposL : ∀ j, (-1 : Int) < (records.map Prod.fst).getD j 0 := by
    intro j
    rw [getD_map_fst]
    by_cases hj : j < records.length
    · have heq : records.getD j ((0 : Int), "") = records[j] := by
        rw [List.getD_eq_getElem?_getD, List.getElem?_eq_getElem hj]
        rfl
      rw [heq]
      exact hpos _ (List.getElem_mem hj)
    · rw [List.getD_eq_default _ _ (Nat.le_of_not_lt hj)]
      decide
  have hrest0 : ∀ k, k < records.length →
      (records.getD k ((0 : Int), "")).1 =
        (records.map Prod.fst).getD (0 + k) 0 := by
    intro k _
    rw [Nat.zero_add, getD_map_fst]
  have hinv0 : StackInv (records.map Prod.fst) 0 []
      [((-1 : Int), (none : Option (List Nat)))] := by
    refine ⟨[], rfl, List.Pairwise.nil, ?_, ?_⟩
    · intro j hj
      exact absurd hj (List.not_mem_nil j)
    · intro j hj
      exact absurd hj (Nat.not_lt_zero j)
  obtain ⟨c1, c2, c3, c4⟩ := populateAux_spec (records.map Prod.fst) hposL
    records 0 [] [((-1 : Int), (none : Option (List Nat)))] hrest0 rfl hinv0
    (fun i hi => absurd hi (Nat.not_lt_zero i))
  refine ⟨by simpa using c1, ?_, ?_, populate_true_eq records, by decide⟩
  · intro i hi
    have h4 := c4 i hi
    simpa using h4
  · intro i hi
    exact c3 i (by simpa using hi)

/-- Witness for C2 at the gapped input `[(1, A), (3, B)]`: two rows, and
the second row's parent path (its path without the last index) is the
first row's path, making B a depth-2 child of A. -/
theorem C2_witness :
    (populateAux [((1 : Int), "A"), ((3 : Int), "B")]
        [((-1 : Int), none)] []).length = 2
    ∧ ((populateAux [((1 : Int), "A"), ((3 : Int), "B")]
        [((-1 : Int), none)] []).getD 1 ([], "")).1.dropLast =
        parentSpec ([((1 : Int), "A"), ((3 : Int), "B")].map Prod.fst)
          (populateAux [((1 : Int), "A"), ((3 : Int), "B")]
            [((-1 : Int), none)] []) 1 := by
  have h := C2_populate_stack_pass [((1 : Int), "A"), ((3 : Int), "B")]
    (by decide)
  exact ⟨h.1, h.2.2.1 1 (by decide)⟩

end ToC
